import Mathlib

/-!
Verification of the persistence and consistency layer of `inventario.py`
(a single-user inventory manager storing `Producto` records in a
`|`-delimited text file).

Embedding conventions:
* Python `str` is Lean `String`; per-character reasoning goes through
  `String.toList`.  `str.strip()` is `stripChars` (drop ASCII whitespace
  at both ends), `str.split("|")` is `splitSep`.
* Python `int` is `Int`; `int(s)` is `pyIntChars` (optional sign followed
  by decimal digits, surrounding whitespace ignored; exotic forms such as
  underscores or non-ASCII digits are not modelled) and `f"{i}"` is
  `intRepr`.
* Python `float` values are modelled as exact decimal rationals: `float(s)`
  is `pyFloatChars` (sign, integer/fractional digits, optional exponent,
  parsed exactly; `inf`/`nan` are not modelled), and `repr(x)` is
  `floatRepr`, which prints the exact positional decimal expansion of a
  rational whose denominator divides a power of ten (every binary float is
  such a rational; Python's switch to scientific notation for extreme
  magnitudes is not modelled).
* The backing file is carried in the `Inventario` state as its current
  text content (`archivo`); success or failure of the OS-level read/write
  is an explicit boolean argument of each operation, and a failed open
  leaves the file content unchanged.
-/

set_option maxRecDepth 8000

/-- Decimal value of a list of digit characters (most significant first). -/
def digitsToNat (l : List Char) : Nat :=
  l.foldl (fun a c => 10 * a + (c.toNat - 48)) 0

/-- Fuel-driven helper for `natDigits` (structural recursion so that it
reduces definitionally). -/
def natDigitsAux : Nat → Nat → List Char
  | 0, _ => []
  | fuel + 1, n =>
    if n < 10 then [Nat.digitChar n]
    else natDigitsAux fuel (n / 10) ++ [Nat.digitChar (n % 10)]

/-- Decimal digit characters of a natural number, most significant first. -/
def natDigits (n : Nat) : List Char := natDigitsAux (n + 1) n

/-- Python `str.strip()`: remove whitespace from both ends. -/
def stripChars (l : List Char) : List Char :=
  ((l.dropWhile Char.isWhitespace).reverse.dropWhile Char.isWhitespace).reverse

/-- Split a character list on every occurrence of a separator character. -/
def splitChar (sep : Char) : List Char → List (List Char)
  | [] => [[]]
  | c :: cs =>
    if c = sep then [] :: splitChar sep cs
    else
      match splitChar sep cs with
      | [] => [[c]]
      | f :: r => (c :: f) :: r

/-- Python `str.split("|")`: split on every occurrence of the delimiter. -/
def splitSep (l : List Char) : List (List Char) := splitChar '|' l

/-- Python `int(s)`: optional sign then decimal digits, whitespace stripped. -/
def pyIntChars (cs0 : List Char) : Option Int :=
  match stripChars cs0 with
  | [] => none
  | c :: r =>
    if c = '-' then
      if !r.isEmpty && r.all Char.isDigit then some (-(digitsToNat r : Int)) else none
    else if c = '+' then
      if !r.isEmpty && r.all Char.isDigit then some ((digitsToNat r : Int)) else none
    else if (c :: r).all Char.isDigit then some ((digitsToNat (c :: r) : Int)) else none

/-- Digits of an exponent part; fails on an empty or non-digit string. -/
def expDigits (r : List Char) : Option Nat :=
  if !r.isEmpty && r.all Char.isDigit then some (digitsToNat r) else none

/-- Signed exponent following `e`/`E` in a float literal; the unsigned value
so far is carried as a numerator-denominator pair. -/
def expSigned (n d : Nat) : List Char → Option (Nat × Nat)
  | '-' :: r => (expDigits r).map (fun e => (n, d * 10 ^ e))
  | '+' :: r => (expDigits r).map (fun e => (n * 10 ^ e, d))
  | r => (expDigits r).map (fun e => (n * 10 ^ e, d))

/-- Optional exponent part of a float literal. -/
def expPart (n d : Nat) : List Char → Option (Nat × Nat)
  | [] => some (n, d)
  | 'e' :: r => expSigned n d r
  | 'E' :: r => expSigned n d r
  | _ => none

/-- Unsigned part of Python `float(s)`: digits, optional point, exponent.
Returns the exact value of the literal as a numerator-denominator pair. -/
def pyFloatMag (cs : List Char) : Option (Nat × Nat) :=
  let ip := cs.takeWhile Char.isDigit
  let rest := cs.dropWhile Char.isDigit
  match rest with
  | '.' :: rest2 =>
    let fp := rest2.takeWhile Char.isDigit
    let rest3 := rest2.dropWhile Char.isDigit
    if ip.isEmpty && fp.isEmpty then none
    else expPart (digitsToNat ip * 10 ^ fp.length + digitsToNat fp) (10 ^ fp.length) rest3
  | r =>
    if ip.isEmpty then none
    else expPart (digitsToNat ip) 1 r

/-- Python `float(s)`: exact rational value of a decimal float literal. -/
def pyFloatChars (cs0 : List Char) : Option ℚ :=
  match stripChars cs0 with
  | [] => none
  | c :: r =>
    if c = '-' then (pyFloatMag r).map (fun nd => mkRat (-(nd.1 : Int)) nd.2)
    else if c = '+' then (pyFloatMag r).map (fun nd => mkRat nd.1 nd.2)
    else (pyFloatMag (c :: r)).map (fun nd => mkRat nd.1 nd.2)

/-- Least `k ≤ d` with `d ∣ 10 ^ k`, when one exists. -/
def decExp (d : Nat) : Option Nat :=
  (List.range (d + 1)).find? (fun k => 10 ^ k % d == 0)

/-- The digits of `a` left-padded with zeros to at least `k + 1` digits. -/
def padDigits (a k : Nat) : List Char :=
  List.replicate (k + 1 - (natDigits a).length) '0' ++ natDigits a

/-- Remove trailing `'0'` characters. -/
def stripTrailZeros (l : List Char) : List Char :=
  (l.reverse.dropWhile (fun c => c == '0')).reverse

/-- Fractional digits to print: trailing zeros removed, but at least one
digit is kept. -/
def fracPart (l : List Char) : List Char :=
  if (stripTrailZeros l).isEmpty then ['0'] else stripTrailZeros l

/-- Positional decimal rendering of the value `a / 10 ^ k` (`a : Nat`):
the digits of `a` padded to at least `k + 1` digits, with the decimal point
`k` digits from the right and trailing fractional zeros removed (keeping at
least one fractional digit). -/
def floatReprDigits (a k : Nat) : List Char :=
  (padDigits a k).take ((padDigits a k).length - k)
    ++ '.' :: fracPart ((padDigits a k).drop ((padDigits a k).length - k))

/-- Python `repr` of a float, modelled as the exact positional decimal
expansion (with at least one fractional digit) of a rational whose
denominator divides a power of ten. -/
def floatReprChars (q : ℚ) : List Char :=
  match decExp q.den with
  | none => ['0', '.', '0']
  | some k =>
    (if q.num < 0 then ['-'] else [])
      ++ floatReprDigits (q.num.natAbs * (10 ^ k / q.den)) k

/-- Python `f"{i}"` for an integer. -/
def intReprChars (i : Int) : List Char :=
  (if i < 0 then ['-'] else []) ++ natDigits i.natAbs

def intRepr (i : Int) : String := String.mk (intReprChars i)

def floatRepr (q : ℚ) : String := String.mk (floatReprChars q)

/-- One product record (`Producto` dataclass). -/
structure Producto where
  id : String
  nombre : String
  cantidad : Int
  precio : ℚ
deriving DecidableEq

/-- `Producto.to_line`: the serialized line
`f"{id}|{nombre}|{cantidad}|{precio}\n"`. -/
def Producto.to_line (p : Producto) : String :=
  p.id ++ "|" ++ p.nombre ++ "|" ++ intRepr p.cantidad ++ "|" ++ floatRepr p.precio ++ "\n"

/-- `Producto.from_line`: strip the line, split on `|`, require exactly four
parts, convert parts three and four; any failure yields `none`. -/
def Producto.from_line (line : String) : Option Producto :=
  match splitSep (stripChars line.toList) with
  | [pid, nom, cs, ps] =>
    match pyIntChars cs, pyFloatChars ps with
    | some c, some pr => some ⟨String.mk pid, String.mk nom, c, pr⟩
    | _, _ => none
  | _ => none

/-- An insertion-ordered association list modelling a Python `dict`. -/
abbrev PMap := List (String × Producto)

/-- Python `dict` lookup (`d.get(k)` / `d[k]`). -/
def dictGet (m : PMap) (k : String) : Option Producto :=
  (m.find? (fun e => e.1 == k)).map (fun e => e.2)

/-- Python `dict` assignment `d[k] = v`: replace the entry in place if the
key is present (keeping its position and original key object), else append. -/
def dictSet : PMap → String → Producto → PMap
  | [], k, v => [(k, v)]
  | (k1, v1) :: t, k, v =>
    if k1 == k then (k1, v) :: t else (k1, v1) :: dictSet t k v

/-- Python `dict.pop(k)`: remove the entry with the given key. -/
def dictPop : PMap → String → PMap
  | [], _ => []
  | (k1, v1) :: t, k => if k1 == k then t else (k1, v1) :: dictPop t k

/-- Python `k in d`. -/
def containsId (m : PMap) (k : String) : Bool :=
  m.any (fun e => e.1 == k)

/-- The store state: the in-memory map plus the current text content of the
backing file. -/
structure Inventario where
  productos : PMap
  archivo : String
deriving DecidableEq

/-- Content written by `guardar_todo`: every record's line, in map order. -/
def serializeAll (m : PMap) : String :=
  String.join (m.map (fun e => e.2.to_line))

/-- `Inventario.guardar_todo`: rewrite the whole file from the map; the
boolean argument tells whether the OS-level write succeeds (a failed open
leaves the file as it was) and is returned as the result. -/
def Inventario.guardar_todo (inv : Inventario) (writeOk : Bool) : Inventario × Bool :=
  if writeOk then ({ inv with archivo := serializeAll inv.productos }, true)
  else (inv, false)

/-- Python `f.readlines()` composed with per-line processing: the file
content split at newlines (terminators are immaterial because every line is
stripped before use, and a trailing empty piece is blank). -/
def readlines (s : String) : List String := (splitChar '\n' s.toList).map String.mk

/-- The loading loop of `cargar_desde_archivo`: clear the map, then for each
line skip it if blank, skip it if `from_line` fails, else insert. -/
def cargarDesdeLineas (lineas : List String) : PMap :=
  lineas.foldl
    (fun m line =>
      if (stripChars line.toList).isEmpty then m
      else
        match Producto.from_line line with
        | none => m
        | some prod => dictSet m prod.id prod)
    []

/-- `Inventario.cargar_desde_archivo`: when the file can be read, replace the
map with the records parsed from it; on any read error (missing file,
permission, other OS error) return with the map untouched.  (In the
missing-file branch the source additionally re-attempts creating an empty
file; only the in-memory map is the subject of the claims here.) -/
def Inventario.cargar_desde_archivo (inv : Inventario) (readOk : Bool) : Inventario :=
  if readOk then { inv with productos := cargarDesdeLineas (readlines inv.archivo) }
  else inv

/-- `Inventario.«añadir_producto»`: fail on a duplicate id, else insert and
persist; the overall result is the persist result. -/
def Inventario.«añadir_producto» (inv : Inventario) (producto : Producto) (writeOk : Bool) :
    Inventario × Bool :=
  if containsId inv.productos producto.id then (inv, false)
  else Inventario.guardar_todo
    { inv with productos := dictSet inv.productos producto.id producto } writeOk

/-- `Inventario.actualizar_producto`: fail on an unknown id, else replace the
entry and persist; the overall result is the persist result. -/
def Inventario.actualizar_producto (inv : Inventario) (producto : Producto) (writeOk : Bool) :
    Inventario × Bool :=
  if !containsId inv.productos producto.id then (inv, false)
  else Inventario.guardar_todo
    { inv with productos := dictSet inv.productos producto.id producto } writeOk

/-- `Inventario.eliminar_producto`: fail on an unknown id, else remove the
entry and persist; the overall result is the persist result. -/
def Inventario.eliminar_producto (inv : Inventario) (idProducto : String) (writeOk : Bool) :
    Inventario × Bool :=
  if !containsId inv.productos idProducto then (inv, false)
  else Inventario.guardar_todo
    { inv with productos := dictPop inv.productos idProducto } writeOk

/-- `Inventario.obtener_producto`: pure lookup. -/
def Inventario.obtener_producto (inv : Inventario) (idProducto : String) : Option Producto :=
  dictGet inv.productos idProducto

/-- The records successfully parsed from a list of lines, in order (blank
lines parse to `none`, so they are dropped here exactly as in the loop). -/
def parsedRecords (lineas : List String) : List Producto :=
  lineas.filterMap Producto.from_line

/-- Whether a string does not begin with a whitespace character. -/
def noLeadWs (s : String) : Bool :=
  match s.toList with
  | [] => true
  | c :: _ => !c.isWhitespace

example : Producto.from_line "P1|Bolt|10|0.5" = some ⟨"P1", "Bolt", 10, mkRat 1 2⟩ := by decide
example : Producto.from_line "P1|Bolt|10" = none := by decide
example : Producto.from_line "P1|Bolt|x|0.5" = none := by decide
example : Producto.from_line "P1|Bolt|10|1e2" = some ⟨"P1", "Bolt", 10, 100⟩ := by decide
example : Producto.to_line ⟨"P1", "Bolt", 10, mkRat 1 2⟩ = "P1|Bolt|10|0.5\n" := by decide
example : Producto.to_line ⟨"A", "B", -3, -(mkRat 3 4)⟩ = "A|B|-3|-0.75\n" := by decide
example : Producto.to_line ⟨"A", "B", 0, 100⟩ = "A|B|0|100.0\n" := by decide
example :
    (Inventario.«añadir_producto» ⟨[], ""⟩ ⟨"P1", "Bolt", 10, mkRat 1 2⟩ true).1.archivo
      = "P1|Bolt|10|0.5\n" := by decide
example :
    (Inventario.cargar_desde_archivo ⟨[], "A|X|1|2.0\nB|Y|3\n"⟩ true).productos
      = [("A", ⟨"A", "X", 1, 2⟩)] := by decide
example :
    dictGet (cargarDesdeLineas ["A|X|1|2.0", "A|Y|2|3.0"]) "A" = some ⟨"A", "Y", 2, 3⟩ := by
  decide

example (a b : String) : (a ++ b).toList = a.toList ++ b.toList := String.data_append a b

theorem dictGet_eq_none_of_not_contains {m : PMap} {k : String}
    (h : containsId m k = false) : dictGet m k = none := by
  unfold dictGet
  rw [List.find?_eq_none.mpr, Option.map_none']
  intro x hx
  exact fun hb => (List.any_eq_false.mp h x hx) hb

theorem dictGet_dictSet_self (m : PMap) (k : String) (v : Producto) :
    dictGet (dictSet m k v) k = some v := by
  induction m with
  | nil => simp [dictSet, dictGet, List.find?]
  | cons e t ih =>
    obtain ⟨k1, v1⟩ := e
    by_cases h : k1 = k
    · subst h
      simp [dictSet, dictGet, List.find?]
    · simp only [dictSet, beq_iff_eq, if_neg h]
      simpa [dictGet, List.find?_cons, h] using ih

theorem dictGet_dictSet_ne (m : PMap) {k k' : String} (v : Producto) (h : k' ≠ k) :
    dictGet (dictSet m k v) k' = dictGet m k' := by
  induction m with
  | nil =>
    have h2 : (k == k') = false := beq_eq_false_iff_ne.mpr fun hh => h hh.symm
    simp [dictSet, dictGet, List.find?, h2]
  | cons e t ih =>
    obtain ⟨k1, v1⟩ := e
    by_cases h1 : k1 = k
    · subst h1
      have h2 : ¬ (k1 = k') := fun hh => h (hh.symm)
      simp [dictSet, dictGet, List.find?_cons, h2]
    · by_cases h2 : k1 = k'
      · subst h2
        simp [dictSet, dictGet, List.find?_cons, h1]
      · simp only [dictSet, beq_iff_eq, if_neg h1]
        simpa [dictGet, List.find?_cons, h2] using ih

theorem from_line_of_strip_empty {line : String}
    (h : (stripChars line.toList).isEmpty = true) : Producto.from_line line = none := by
  unfold Producto.from_line splitSep
  rw [List.isEmpty_iff.mp h]
  rfl

theorem cargar_loop_eq (lineas : List String) (m : PMap) :
    lineas.foldl
      (fun m line =>
        if (stripChars line.toList).isEmpty then m
        else
          match Producto.from_line line with
          | none => m
          | some prod => dictSet m prod.id prod)
      m
    = (lineas.filterMap Producto.from_line).foldl (fun m p => dictSet m p.id p) m := by
  induction lineas generalizing m with
  | nil => rfl
  | cons l ls ih =>
    by_cases hb : (stripChars l.toList).isEmpty = true
    · rw [List.foldl_cons, if_pos hb, List.filterMap_cons, from_line_of_strip_empty hb]
      exact ih m
    · rw [List.foldl_cons, if_neg hb, List.filterMap_cons]
      cases hfl : Producto.from_line l with
      | none => exact ih m
      | some p =>
        rw [List.foldl_cons]
        exact ih _

theorem cargarDesdeLineas_eq (lineas : List String) :
    cargarDesdeLineas lineas
      = (parsedRecords lineas).foldl (fun m p => dictSet m p.id p) [] :=
  cargar_loop_eq lineas []

/-- C7: when the backing file cannot be opened for reading, the reload
aborts and the in-memory map is left exactly as it was before the call. -/
theorem cargar_read_failure_preserves_map (inv : Inventario) :
    (inv.cargar_desde_archivo false).productos = inv.productos := rfl

/-- C2: a successful reload replaces the in-memory map with exactly the
records parsed from the file's lines (blank and malformed lines dropped,
in the order given by `parsedRecords`); reloading twice with the same file
content gives the same map; and a file with one well-formed line and one
three-field line loads exactly one record. -/
theorem cargar_replaces_and_idempotent :
    (∀ inv : Inventario,
      ((inv.cargar_desde_archivo true).cargar_desde_archivo true).productos
        = (inv.cargar_desde_archivo true).productos)
    ∧ (∀ inv : Inventario,
      (inv.cargar_desde_archivo true).productos
        = (parsedRecords (readlines inv.archivo)).foldl (fun m p => dictSet m p.id p) [])
    ∧ (Inventario.cargar_desde_archivo
        ⟨[("Z", ⟨"Z", "Old", 0, 0⟩)], "A|X|1|2.0\nB|Y|3\n"⟩ true).productos
      = [("A", ⟨"A", "X", 1, 2⟩)] := by
  refine ⟨fun inv => ?_, fun inv => ?_, by decide⟩
  · cases inv
    simp [Inventario.cargar_desde_archivo]
  · cases inv
    simp [Inventario.cargar_desde_archivo, cargarDesdeLineas_eq]

/-- C4: adding a record whose id is already in the map fails (the duplicate
is reported and `False` returned) and returns the store state unchanged:
neither the map nor the backing file is touched. -/
theorem anadir_duplicate_id_unchanged (inv : Inventario) (p : Producto) (writeOk : Bool)
    (h : containsId inv.productos p.id = true) :
    inv.«añadir_producto» p writeOk = (inv, false) := by
  simp [Inventario.«añadir_producto», h]

theorem anadir_duplicate_id_unchanged_witness :
    containsId [("P1", ⟨"P1", "Bolt", 10, mkRat 1 2⟩)] "P1" = true
    ∧ Inventario.«añadir_producto»
        ⟨[("P1", ⟨"P1", "Bolt", 10, mkRat 1 2⟩)], "P1|Bolt|10|0.5\n"⟩ ⟨"P1", "X", 1, 0⟩ true
      = (⟨[("P1", ⟨"P1", "Bolt", 10, mkRat 1 2⟩)], "P1|Bolt|10|0.5\n"⟩, false) :=
  ⟨by decide, anadir_duplicate_id_unchanged _ _ _ (by decide)⟩

/-- C5: update and delete on an id that is not in the map fail and return
the store state unchanged, and get on such an id yields nothing. -/
theorem not_found_ops_unchanged (inv : Inventario) (p : Producto) (idp : String)
    (writeOk : Bool) :
    (containsId inv.productos p.id = false →
      inv.actualizar_producto p writeOk = (inv, false))
    ∧ (containsId inv.productos idp = false →
      inv.eliminar_producto idp writeOk = (inv, false))
    ∧ (containsId inv.productos idp = false →
      inv.obtener_producto idp = none) := by
  refine ⟨fun h => ?_, fun h => ?_, fun h => ?_⟩
  · simp [Inventario.actualizar_producto, h]
  · simp [Inventario.eliminar_producto, h]
  · exact dictGet_eq_none_of_not_contains h

theorem not_found_ops_unchanged_witness :
    containsId [("P1", ⟨"P1", "Bolt", 10, mkRat 1 2⟩)] "P9" = false
    ∧ Inventario.actualizar_producto
        ⟨[("P1", ⟨"P1", "Bolt", 10, mkRat 1 2⟩)], "P1|Bolt|10|0.5\n"⟩ ⟨"P9", "X", 1, 0⟩ true
      = (⟨[("P1", ⟨"P1", "Bolt", 10, mkRat 1 2⟩)], "P1|Bolt|10|0.5\n"⟩, false)
    ∧ Inventario.eliminar_producto
        ⟨[("P1", ⟨"P1", "Bolt", 10, mkRat 1 2⟩)], "P1|Bolt|10|0.5\n"⟩ "P9" true
      = (⟨[("P1", ⟨"P1", "Bolt", 10, mkRat 1 2⟩)], "P1|Bolt|10|0.5\n"⟩, false)
    ∧ Inventario.obtener_producto
        ⟨[("P1", ⟨"P1", "Bolt", 10, mkRat 1 2⟩)], "P1|Bolt|10|0.5\n"⟩ "P9" = none :=
  ⟨by decide,
    (not_found_ops_unchanged _ ⟨"P9", "X", 1, 0⟩ "P9" true).1 (by decide),
    (not_found_ops_unchanged _ ⟨"P9", "X", 1, 0⟩ "P9" true).2.1 (by decide),
    (not_found_ops_unchanged _ ⟨"P9", "X", 1, 0⟩ "P9" true).2.2 (by decide)⟩

/-- C6: when the id-precondition of add, update or delete holds but the
subsequent persist fails, the operation reports failure while the in-memory
mutation (insertion, replacement, removal) stays applied and the file keeps
its previous content. -/
theorem persist_failure_not_rolled_back (inv : Inventario) (p : Producto) (idp : String) :
    (containsId inv.productos p.id = false →
      inv.«añadir_producto» p false
        = (⟨dictSet inv.productos p.id p, inv.archivo⟩, false)
      ∧ (inv.«añadir_producto» p false).1.obtener_producto p.id = some p)
    ∧ (containsId inv.productos p.id = true →
      inv.actualizar_producto p false
        = (⟨dictSet inv.productos p.id p, inv.archivo⟩, false)
      ∧ (inv.actualizar_producto p false).1.obtener_producto p.id = some p)
    ∧ (containsId inv.productos idp = true →
      inv.eliminar_producto idp false
        = (⟨dictPop inv.productos idp, inv.archivo⟩, false)) := by
  refine ⟨fun h => ⟨?_, ?_⟩, fun h => ⟨?_, ?_⟩, fun h => ?_⟩
  · simp [Inventario.«añadir_producto», Inventario.guardar_todo, h]
  · simp [Inventario.«añadir_producto», Inventario.guardar_todo, h,
      Inventario.obtener_producto, dictGet_dictSet_self]
  · simp [Inventario.actualizar_producto, Inventario.guardar_todo, h]
  · simp [Inventario.actualizar_producto, Inventario.guardar_todo, h,
      Inventario.obtener_producto, dictGet_dictSet_self]
  · simp [Inventario.eliminar_producto, Inventario.guardar_todo, h]

theorem persist_failure_not_rolled_back_witness :
    containsId [("P1", ⟨"P1", "Bolt", 10, mkRat 1 2⟩)] "P2" = false
    ∧ containsId [("P1", ⟨"P1", "Bolt", 10, mkRat 1 2⟩)] "P1" = true
    ∧ Inventario.«añadir_producto»
        ⟨[("P1", ⟨"P1", "Bolt", 10, mkRat 1 2⟩)], "F"⟩ ⟨"P2", "Nut", 1, 2⟩ false
      = (⟨[("P1", ⟨"P1", "Bolt", 10, mkRat 1 2⟩), ("P2", ⟨"P2", "Nut", 1, 2⟩)], "F"⟩, false)
    ∧ Inventario.eliminar_producto ⟨[("P1", ⟨"P1", "Bolt", 10, mkRat 1 2⟩)], "F"⟩ "P1" false
      = (⟨[], "F"⟩, false) := by
  refine ⟨by decide, by decide, ?_, ?_⟩
  · exact ((persist_failure_not_rolled_back
      ⟨[("P1", ⟨"P1", "Bolt", 10, mkRat 1 2⟩)], "F"⟩ ⟨"P2", "Nut", 1, 2⟩ "P1").1 (by decide)).1
  · exact (persist_failure_not_rolled_back
      ⟨[("P1", ⟨"P1", "Bolt", 10, mkRat 1 2⟩)], "F"⟩ ⟨"P2", "Nut", 1, 2⟩ "P1").2.2 (by decide)

/-- C8: serialization joins the four fields with the single separator and
terminates with one newline; adding `P1|Bolt|10|0.5` to an empty store
persists exactly that line. -/
theorem to_line_format (p : Producto) :
    (p.to_line).toList
      = p.id.toList ++ '|' :: p.nombre.toList
        ++ '|' :: intReprChars p.cantidad ++ '|' :: floatReprChars p.precio ++ ['\n']
    ∧ (p.to_line).toList.getLast? = some '\n'
    ∧ (Inventario.«añadir_producto» ⟨[], ""⟩ ⟨"P1", "Bolt", 10, mkRat 1 2⟩ true).1.archivo
      = "P1|Bolt|10|0.5\n" := by
  have h1 : (p.to_line).toList
      = p.id.toList ++ '|' :: p.nombre.toList
        ++ '|' :: intReprChars p.cantidad ++ '|' :: floatReprChars p.precio ++ ['\n'] := by
    show (p.to_line).data = _
    simp [Producto.to_line, String.data_append, intRepr, floatRepr, String.toList]
  refine ⟨h1, ?_, by decide⟩
  rw [h1]
  rw [show p.id.toList ++ '|' :: p.nombre.toList
        ++ '|' :: intReprChars p.cantidad ++ '|' :: floatReprChars p.precio ++ ['\n']
      = (p.id.toList ++ '|' :: p.nombre.toList
        ++ '|' :: intReprChars p.cantidad ++ '|' :: floatReprChars p.precio) ++ ['\n'] by
    simp]
  exact List.getLast?_concat _

theorem natDigitsAux_irrel (f1 : Nat) : ∀ (f2 n : Nat), n < f1 → n < f2 →
    natDigitsAux f1 n = natDigitsAux f2 n := by
  induction f1 with
  | zero => intro f2 n h1; omega
  | succ f1 ih =>
    intro f2 n h1 h2
    cases f2 with
    | zero => omega
    | succ f2 =>
      simp only [natDigitsAux]
      by_cases h10 : n < 10
      · simp [h10]
      · have hdiv : n / 10 < n := Nat.div_lt_self (by omega) (by omega)
        rw [if_neg h10, if_neg h10, ih f2 (n / 10) (by omega) (by omega)]

theorem natDigits_eq (n : Nat) :
    natDigits n
      = if n < 10 then [Nat.digitChar n]
        else natDigits (n / 10) ++ [Nat.digitChar (n % 10)] := by
  by_cases h10 : n < 10
  · simp [natDigits, natDigitsAux, h10]
  · have hdiv : n / 10 < n := Nat.div_lt_self (by omega) (by omega)
    rw [if_neg h10,
      show natDigits n
          = if n < 10 then [Nat.digitChar n]
            else natDigitsAux n (n / 10) ++ [Nat.digitChar (n % 10)] from rfl,
      if_neg h10,
      show natDigits (n / 10) = natDigitsAux (n / 10 + 1) (n / 10) from rfl,
      natDigitsAux_irrel n (n / 10 + 1) (n / 10) (by omega) (by omega)]

theorem digitChar_props (d : Nat) (hd : d < 10) :
    (Nat.digitChar d).isDigit = true ∧ (Nat.digitChar d).isWhitespace = false
      ∧ Nat.digitChar d ≠ '|' ∧ Nat.digitChar d ≠ '-' ∧ Nat.digitChar d ≠ '+'
      ∧ (Nat.digitChar d).toNat = 48 + d := by
  interval_cases d <;> decide

theorem natDigits_mem (n : Nat) : ∀ c ∈ natDigits n, ∃ d, d < 10 ∧ c = Nat.digitChar d := by
  induction n using Nat.strong_induction_on with
  | _ n ih =>
    intro c hc
    rw [natDigits_eq] at hc
    by_cases h10 : n < 10
    · rw [if_pos h10] at hc
      simp only [List.mem_singleton] at hc
      exact ⟨n, h10, hc⟩
    · rw [if_neg h10] at hc
      rcases List.mem_append.mp hc with h | h
      · exact ih (n / 10) (Nat.div_lt_self (by omega) (by omega)) c h
      · simp only [List.mem_singleton] at h
        exact ⟨n % 10, Nat.mod_lt n (by omega), h⟩

theorem natDigits_props (n : Nat) : ∀ c ∈ natDigits n,
    c.isDigit = true ∧ c.isWhitespace = false ∧ c ≠ '|' ∧ c ≠ '-' ∧ c ≠ '+' := by
  intro c hc
  obtain ⟨d, hd, rfl⟩ := natDigits_mem n c hc
  have h := digitChar_props d hd
  exact ⟨h.1, h.2.1, h.2.2.1, h.2.2.2.1, h.2.2.2.2.1⟩

theorem natDigits_ne_nil (n : Nat) : natDigits n ≠ [] := by
  rw [natDigits_eq]
  by_cases h10 : n < 10 <;> simp [h10]

theorem digitsToNat_shift (b : List Char) (s : Nat) :
    b.foldl (fun a c => 10 * a + (c.toNat - 48)) s
      = s * 10 ^ b.length + digitsToNat b := by
  induction b generalizing s with
  | nil => simp [digitsToNat]
  | cons c t ih =>
    simp only [List.foldl_cons, List.length_cons]
    rw [ih, show digitsToNat (c :: t)
        = (t.foldl (fun a c => 10 * a + (c.toNat - 48)) (10 * 0 + (c.toNat - 48))) from rfl,
      ih]
    ring

theorem digitsToNat_append (a b : List Char) :
    digitsToNat (a ++ b) = digitsToNat a * 10 ^ b.length + digitsToNat b := by
  show (a ++ b).foldl (fun a c => 10 * a + (c.toNat - 48)) 0 = _
  rw [List.foldl_append, digitsToNat_shift]
  rfl

theorem digitsToNat_natDigits (n : Nat) : digitsToNat (natDigits n) = n := by
  induction n using Nat.strong_induction_on with
  | _ n ih =>
    rw [natDigits_eq]
    by_cases h10 : n < 10
    · rw [if_pos h10]
      have h := (digitChar_props n h10).2.2.2.2.2
      simp [digitsToNat, h]
    · rw [if_neg h10, digitsToNat_append,
        ih (n / 10) (Nat.div_lt_self (by omega) (by omega))]
      have h := (digitChar_props (n % 10) (Nat.mod_lt n (by omega))).2.2.2.2.2
      simp [digitsToNat, h]
      omega

theorem digitsToNat_replicate (j : Nat) : digitsToNat (List.replicate j '0') = 0 := by
  induction j with
  | zero => rfl
  | succ j ih =>
    rw [List.replicate_succ,
      show digitsToNat ('0' :: List.replicate j '0')
        = (List.replicate j '0').foldl (fun a c => 10 * a + (c.toNat - 48))
            (10 * 0 + ('0'.toNat - 48)) from rfl]
    simpa [digitsToNat] using ih

theorem dropWhile_eq_self_of_all {p : Char → Bool} {l : List Char}
    (h : ∀ c ∈ l, p c = false) : l.dropWhile p = l := by
  cases l with
  | nil => rfl
  | cons c t => simp [List.dropWhile_cons, h c (List.mem_cons_self c t)]

theorem stripChars_eq_self {l : List Char} (h : ∀ c ∈ l, c.isWhitespace = false) :
    stripChars l = l := by
  unfold stripChars
  rw [dropWhile_eq_self_of_all h,
    dropWhile_eq_self_of_all (fun c hc => h c (List.mem_reverse.mp hc)),
    List.reverse_reverse]

theorem stripChars_line (f1 rest : List Char) (d : Char)
    (hf : ∀ c, f1.head? = some c → c.isWhitespace = false)
    (hd : d.isWhitespace = false) :
    stripChars (f1 ++ '|' :: (rest ++ [d] ++ ['\n'])) = f1 ++ '|' :: (rest ++ [d]) := by
  unfold stripChars
  have hfront : (f1 ++ '|' :: (rest ++ [d] ++ ['\n'])).dropWhile Char.isWhitespace
      = f1 ++ '|' :: (rest ++ [d] ++ ['\n']) := by
    cases f1 with
    | nil => simp [List.dropWhile_cons]
    | cons c t => simp [List.dropWhile_cons, hf c rfl]
  rw [hfront]
  have hshape : f1 ++ '|' :: (rest ++ [d] ++ ['\n'])
      = ((f1 ++ '|' :: rest) ++ [d]) ++ ['\n'] := by
    simp
  rw [hshape]
  rw [List.reverse_append, List.reverse_append]
  simp only [List.reverse_cons, List.reverse_nil, List.nil_append, List.singleton_append,
    List.cons_append]
  rw [List.dropWhile_cons, if_pos (by decide), List.dropWhile_cons, if_neg (by simp [hd])]
  rw [show (d :: (f1 ++ '|' :: rest).reverse : List Char)
      = ([d] : List Char) ++ (f1 ++ '|' :: rest).reverse by simp]
  rw [List.reverse_append, List.reverse_reverse]
  simp

theorem splitChar_ne_nil (sep : Char) (l : List Char) : splitChar sep l ≠ [] := by
  induction l with
  | nil => simp [splitChar]
  | cons c cs ih =>
    simp only [splitChar]
    split
    · simp
    · split
      · simp
      · simp

theorem splitChar_cons_of_ne {sep c : Char} (h : ¬ c = sep) (cs f : List Char)
    (r : List (List Char)) (hs : splitChar sep cs = f :: r) :
    splitChar sep (c :: cs) = (c :: f) :: r := by
  simp [splitChar, h, hs]

theorem splitChar_append {sep : Char} (f1 : List Char) (h : sep ∉ f1) (r : List Char) :
    splitChar sep (f1 ++ sep :: r) = f1 :: splitChar sep r := by
  induction f1 with
  | nil => simp [splitChar]
  | cons c t ih =>
    have hc : ¬ c = sep := fun hh => h (hh ▸ List.mem_cons_self c t)
    have ht : sep ∉ t := fun hh => h (List.mem_cons_of_mem c hh)
    exact splitChar_cons_of_ne hc _ _ _ (ih ht)

theorem splitChar_no_sep {sep : Char} (l : List Char) (h : sep ∉ l) :
    splitChar sep l = [l] := by
  induction l with
  | nil => rfl
  | cons c t ih =>
    have hc : ¬ c = sep := fun hh => h (hh ▸ List.mem_cons_self c t)
    have ht : sep ∉ t := fun hh => h (List.mem_cons_of_mem c hh)
    exact splitChar_cons_of_ne hc _ _ _ (ih ht)

theorem natDigits_all_digit (n : Nat) : ((natDigits n).all Char.isDigit) = true :=
  List.all_eq_true.mpr fun x hx => (natDigits_props n x hx).1

theorem natDigits_isEmpty_false (n : Nat) : (natDigits n).isEmpty = false := by
  rw [List.isEmpty_eq_false_iff_exists_mem]
  obtain ⟨c, cs, hc⟩ := List.exists_cons_of_ne_nil (natDigits_ne_nil n)
  exact ⟨c, hc ▸ List.mem_cons_self c cs⟩

theorem pyIntChars_intReprChars (i : Int) : pyIntChars (intReprChars i) = some i := by
  by_cases hi : i < 0
  · have hrepr : intReprChars i = '-' :: natDigits i.natAbs := by
      simp [intReprChars, hi]
    have hstrip : stripChars (intReprChars i) = '-' :: natDigits i.natAbs := by
      rw [hrepr]
      apply stripChars_eq_self
      intro c hc
      rcases List.mem_cons.mp hc with rfl | hc
      · decide
      · exact (natDigits_props _ c hc).2.1
    have hcond : (!(natDigits i.natAbs).isEmpty && (natDigits i.natAbs).all Char.isDigit)
        = true := by
      rw [natDigits_isEmpty_false, natDigits_all_digit]
      rfl
    unfold pyIntChars
    rw [hstrip]
    dsimp only
    rw [if_pos rfl, if_pos hcond, digitsToNat_natDigits]
    rw [Option.some_inj]
    omega
  · have hrepr : intReprChars i = natDigits i.natAbs := by
      simp [intReprChars, hi]
    have hstrip : stripChars (intReprChars i) = natDigits i.natAbs := by
      rw [hrepr]
      exact stripChars_eq_self fun c hc => (natDigits_props _ c hc).2.1
    obtain ⟨c, cs, hcons⟩ := List.exists_cons_of_ne_nil (natDigits_ne_nil i.natAbs)
    have hcprops := natDigits_props i.natAbs c (hcons ▸ List.mem_cons_self c cs)
    have hall : ((c :: cs).all Char.isDigit) = true := by
      rw [← hcons]
      exact natDigits_all_digit _
    unfold pyIntChars
    rw [hstrip, hcons]
    dsimp only
    rw [if_neg hcprops.2.2.2.1, if_neg hcprops.2.2.2.2, if_pos hall, ← hcons,
      digitsToNat_natDigits, Option.some_inj]
    omega

theorem takeWhile_append_of_all {p : Char → Bool} {a : List Char}
    (h : ∀ c ∈ a, p c = true) (b : List Char) :
    (a ++ b).takeWhile p = a ++ b.takeWhile p := by
  induction a with
  | nil => rfl
  | cons c t ih =>
    rw [List.cons_append, List.takeWhile_cons,
      if_pos (h c (List.mem_cons_self c t)), List.cons_append,
      ih fun x hx => h x (List.mem_cons_of_mem c hx)]

theorem dropWhile_append_of_all {p : Char → Bool} {a : List Char}
    (h : ∀ c ∈ a, p c = true) (b : List Char) :
    (a ++ b).dropWhile p = b.dropWhile p := by
  induction a with
  | nil => rfl
  | cons c t ih =>
    rw [List.cons_append, List.dropWhile_cons,
      if_pos (h c (List.mem_cons_self c t)),
      ih fun x hx => h x (List.mem_cons_of_mem c hx)]

theorem padDigits_mem (a k : Nat) : ∀ c ∈ padDigits a k,
    c.isDigit = true ∧ c.isWhitespace = false ∧ c ≠ '|' ∧ c ≠ '-' ∧ c ≠ '+' := by
  intro c hc
  rcases List.mem_append.mp hc with hrep | hnd
  · have h0 : c = '0' := List.eq_of_mem_replicate hrep
    subst h0
    exact ⟨by decide, by decide, by decide, by decide, by decide⟩
  · exact natDigits_props a c hnd

theorem padDigits_len (a k : Nat) : k + 1 ≤ (padDigits a k).length := by
  rw [padDigits, List.length_append, List.length_replicate]
  omega

theorem padDigits_val (a k : Nat) : digitsToNat (padDigits a k) = a := by
  rw [padDigits, digitsToNat_append, digitsToNat_replicate, digitsToNat_natDigits]
  ring

theorem stripTrailZeros_decomp (l : List Char) :
    l = stripTrailZeros l ++ List.replicate (l.length - (stripTrailZeros l).length) '0' := by
  have hsplit : l.reverse.takeWhile (fun c => c == '0')
      ++ l.reverse.dropWhile (fun c => c == '0') = l.reverse :=
    List.takeWhile_append_dropWhile (fun c => c == '0') l.reverse
  have hrep : l.reverse.takeWhile (fun c => c == '0')
      = List.replicate (l.reverse.takeWhile (fun c => c == '0')).length '0' := by
    apply List.eq_replicate_of_mem
    intro b hb
    have := List.mem_takeWhile_imp hb
    simpa using this
  have hl : l = (l.reverse.dropWhile (fun c => c == '0')).reverse
      ++ (l.reverse.takeWhile (fun c => c == '0')).reverse := by
    conv_lhs => rw [← List.reverse_reverse l, ← hsplit]
    rw [List.reverse_append]
  simp only [stripTrailZeros]
  conv_lhs => rw [hl]
  congr 1
  rw [hrep, List.reverse_replicate]
  congr 1
  have hlen : l.length = (l.reverse.takeWhile (fun c => c == '0')).length
      + (l.reverse.dropWhile (fun c => c == '0')).length := by
    conv_lhs => rw [← List.length_reverse, ← hsplit]
    rw [List.length_append]
  simp only [stripTrailZeros, List.length_reverse]
  omega

theorem stripTrailZeros_subset {l : List Char} {c : Char} (h : c ∈ stripTrailZeros l) :
    c ∈ l := by
  rw [stripTrailZeros] at h
  rw [List.mem_reverse] at h
  exact List.mem_reverse.mp ((List.dropWhile_sublist _).mem h)

theorem stripTrailZeros_len_le (l : List Char) : (stripTrailZeros l).length ≤ l.length := by
  rw [stripTrailZeros, List.length_reverse]
  calc (l.reverse.dropWhile (fun c => c == '0')).length
      ≤ l.reverse.length := (List.dropWhile_sublist _).length_le
    _ = l.length := List.length_reverse l

theorem floatReprDigits_spec (a k : Nat) :
    ∃ ip fp, floatReprDigits a k = ip ++ '.' :: fp
      ∧ ip ≠ [] ∧ fp ≠ []
      ∧ (∀ c ∈ ip ++ fp,
          c.isDigit = true ∧ c.isWhitespace = false ∧ c ≠ '|' ∧ c ≠ '-' ∧ c ≠ '+')
      ∧ (digitsToNat ip * 10 ^ fp.length + digitsToNat fp) * 10 ^ k
          = a * 10 ^ fp.length := by
  have hlen := padDigits_len a k
  have hmemP := padDigits_mem a k
  have hPval := padDigits_val a k
  set P := padDigits a k with hP
  set ip := P.take (P.length - k) with hipdef
  set fp0 := P.drop (P.length - k) with hfp0def
  have hiplen : ip.length = P.length - k := by
    rw [hipdef, List.length_take]
    omega
  have hipne : ip ≠ [] := by
    apply List.ne_nil_of_length_pos
    omega
  have hfp0len : fp0.length = k := by
    rw [hfp0def, List.length_drop]
    omega
  have hPsplit : ip ++ fp0 = P := List.take_append_drop _ _
  have hval0 : digitsToNat ip * 10 ^ k + digitsToNat fp0 = a := by
    conv_rhs => rw [← hPval, ← hPsplit]
    rw [digitsToNat_append, hfp0len]
  have hmemip : ∀ c ∈ ip,
      c.isDigit = true ∧ c.isWhitespace = false ∧ c ≠ '|' ∧ c ≠ '-' ∧ c ≠ '+' :=
    fun c hc => hmemP c (by rw [← hPsplit]; exact List.mem_append_left _ hc)
  have hmemfp0 : ∀ c ∈ fp0,
      c.isDigit = true ∧ c.isWhitespace = false ∧ c ≠ '|' ∧ c ≠ '-' ∧ c ≠ '+' :=
    fun c hc => hmemP c (by rw [← hPsplit]; exact List.mem_append_right _ hc)
  have key : fracPart fp0 ≠ []
      ∧ (∀ c ∈ fracPart fp0,
          c.isDigit = true ∧ c.isWhitespace = false ∧ c ≠ '|' ∧ c ≠ '-' ∧ c ≠ '+')
      ∧ (digitsToNat ip * 10 ^ (fracPart fp0).length + digitsToNat (fracPart fp0))
          * 10 ^ k = a * 10 ^ (fracPart fp0).length := by
    by_cases hz : (stripTrailZeros fp0).isEmpty = true
    · have hfrac : fracPart fp0 = ['0'] := by rw [fracPart, if_pos hz]
      have hdec := stripTrailZeros_decomp fp0
      rw [List.isEmpty_iff.mp hz, List.nil_append] at hdec
      have hfp0val : digitsToNat fp0 = 0 := by
        rw [hdec]
        exact digitsToNat_replicate _
      have ha : a = digitsToNat ip * 10 ^ k := by omega
      refine ⟨by simp [hfrac], ?_, ?_⟩
      · intro c hc
        rw [hfrac, List.mem_singleton] at hc
        subst hc
        exact ⟨by decide, by decide, by decide, by decide, by decide⟩
      · rw [hfrac, ha]
        have h0 : digitsToNat ['0'] = 0 := by decide
        simp only [List.length_singleton, h0]
        ring
    · have hfrac : fracPart fp0 = stripTrailZeros fp0 := by rw [fracPart, if_neg hz]
      have hdec := stripTrailZeros_decomp fp0
      have htle := stripTrailZeros_len_le fp0
      have hjk : (stripTrailZeros fp0).length + (fp0.length - (stripTrailZeros fp0).length)
          = k := by omega
      have hfp0val : digitsToNat fp0
          = digitsToNat (stripTrailZeros fp0)
            * 10 ^ (fp0.length - (stripTrailZeros fp0).length) := by
        conv_lhs => rw [hdec]
        rw [digitsToNat_append, digitsToNat_replicate, List.length_replicate]
        ring
      have ha : a = digitsToNat ip * 10 ^ k
          + digitsToNat (stripTrailZeros fp0)
            * 10 ^ (fp0.length - (stripTrailZeros fp0).length) := by omega
      refine ⟨?_, ?_, ?_⟩
      · rw [hfrac]
        intro hnil
        rw [hnil] at hz
        simp at hz
      · intro c hc
        rw [hfrac] at hc
        exact hmemfp0 c (stripTrailZeros_subset hc)
      · rw [hfrac, ha, ← hjk]
        ring
  exact ⟨ip, fracPart fp0, rfl, hipne, key.1,
    fun c hc => (List.mem_append.mp hc).elim (hmemip c) (key.2.1 c), key.2.2⟩

theorem pyFloatMag_floatReprDigits (a k : Nat) :
    ∃ n d, pyFloatMag (floatReprDigits a k) = some (n, d)
      ∧ d ≠ 0 ∧ n * 10 ^ k = a * d
      ∧ (∀ c ∈ floatReprDigits a k, c.isWhitespace = false ∧ c ≠ '|')
      ∧ (∃ c0 cs0, floatReprDigits a k = c0 :: cs0
          ∧ c0.isDigit = true ∧ c0 ≠ '-' ∧ c0 ≠ '+') := by
  obtain ⟨ip, fp, heq, hipne, hfpne, hmem, hval⟩ := floatReprDigits_spec a k
  have hipdig : ∀ c ∈ ip, Char.isDigit c = true :=
    fun c hc => (hmem c (List.mem_append_left _ hc)).1
  have hfpdig : ∀ c ∈ fp, Char.isDigit c = true :=
    fun c hc => (hmem c (List.mem_append_right _ hc)).1
  refine ⟨digitsToNat ip * 10 ^ fp.length + digitsToNat fp, 10 ^ fp.length, ?_,
    pow_ne_zero _ (by omega), hval, ?_, ?_⟩
  · rw [heq]
    unfold pyFloatMag
    rw [takeWhile_append_of_all hipdig, dropWhile_append_of_all hipdig,
      List.takeWhile_cons, if_neg (by decide), List.dropWhile_cons, if_neg (by decide),
      List.append_nil]
    dsimp only
    have hfptake : fp.takeWhile Char.isDigit = fp := by
      have := takeWhile_append_of_all hfpdig []
      simpa using this
    have hfpdrop : fp.dropWhile Char.isDigit = [] := by
      have := dropWhile_append_of_all hfpdig []
      simpa using this
    have hipempty : ip.isEmpty = false := by
      cases ip with
      | nil => exact absurd rfl hipne
      | cons c t => rfl
    split
    · next rest2 heq2 =>
        injection heq2 with h1 h2
        subst h2
        rw [hfptake, hfpdrop, if_neg (by simp [hipempty])]
        rfl
    · next h =>
        exact absurd rfl (h fp)
  · intro c hc
    rw [heq] at hc
    rcases List.mem_append.mp hc with h | h
    · exact ⟨(hmem c (List.mem_append_left _ h)).2.1, (hmem c (List.mem_append_left _ h)).2.2.1⟩
    · rcases List.mem_cons.mp h with rfl | h
      · exact ⟨by decide, by decide⟩
      · exact ⟨(hmem c (List.mem_append_right _ h)).2.1,
          (hmem c (List.mem_append_right _ h)).2.2.1⟩
  · obtain ⟨c0, cs0, hip⟩ := List.exists_cons_of_ne_nil hipne
    have hc0 := hmem c0 (List.mem_append_left _ (hip ▸ List.mem_cons_self c0 cs0))
    exact ⟨c0, cs0 ++ '.' :: fp, by rw [heq, hip, List.cons_append], hc0.1,
      hc0.2.2.2.1, hc0.2.2.2.2⟩

theorem decExp_dvd {d : Nat} (hd : d ∣ 10 ^ d) : ∃ k, decExp d = some k ∧ d ∣ 10 ^ k := by
  have hd0 : 0 < d := by
    rcases Nat.eq_zero_or_pos d with rfl | h
    · simp at hd
    · exact h
  cases hfind : decExp d with
  | some k =>
    have hp := List.find?_some hfind
    exact ⟨k, rfl, Nat.dvd_of_mod_eq_zero (by simpa using hp)⟩
  | none =>
    exfalso
    have hnone := List.find?_eq_none.mp hfind d (List.mem_range.mpr (by omega))
    apply hnone
    obtain ⟨c, hc⟩ := hd
    simp [hc, Nat.mul_mod_right]

theorem pyFloatChars_floatReprChars (q : ℚ) (h : q.den ∣ 10 ^ q.den) :
    pyFloatChars (floatReprChars q) = some q := by
  obtain ⟨k, hk, hdvd⟩ := decExp_dvd h
  have hrepr : floatReprChars q
      = (if q.num < 0 then ['-'] else [])
        ++ floatReprDigits (q.num.natAbs * (10 ^ k / q.den)) k := by
    unfold floatReprChars
    rw [hk]
  obtain ⟨n, d, hmag, hd0, hval, hws, c0, cs0, hcons0, hc0dig, hc0m, hc0p⟩ :=
    pyFloatMag_floatReprDigits (q.num.natAbs * (10 ^ k / q.den)) k
  have hden0 : (q.den : ℚ) ≠ 0 := Nat.cast_ne_zero.mpr q.den_nz
  have hd0q : (d : ℚ) ≠ 0 := Nat.cast_ne_zero.mpr hd0
  have hAden : q.num.natAbs * (10 ^ k / q.den) * q.den = q.num.natAbs * 10 ^ k := by
    rw [Nat.mul_assoc, Nat.div_mul_cancel hdvd]
  have hnden : n * q.den = q.num.natAbs * d := by
    have h1 : n * q.den * 10 ^ k = q.num.natAbs * d * 10 ^ k := by
      calc n * q.den * 10 ^ k = (n * 10 ^ k) * q.den := by ring
        _ = (q.num.natAbs * (10 ^ k / q.den) * d) * q.den := by rw [hval]
        _ = (q.num.natAbs * (10 ^ k / q.den) * q.den) * d := by ring
        _ = (q.num.natAbs * 10 ^ k) * d := by rw [hAden]
        _ = q.num.natAbs * d * 10 ^ k := by ring
    exact Nat.eq_of_mul_eq_mul_right (pow_pos (by omega) k) h1
  have hvalq : (n : ℚ) / d = (q.num.natAbs : ℚ) / q.den := by
    rw [div_eq_div_iff hd0q hden0]
    exact_mod_cast hnden
  by_cases hneg : q.num < 0
  · have habs : ((q.num.natAbs : ℚ)) = -(q.num : ℚ) := by
      rw [Int.cast_natAbs, abs_of_neg hneg]
      exact Int.cast_neg q.num
    have hstrip : stripChars (floatReprChars q)
        = '-' :: floatReprDigits (q.num.natAbs * (10 ^ k / q.den)) k := by
      rw [hrepr, if_pos hneg, List.singleton_append]
      apply stripChars_eq_self
      intro c hc
      rcases List.mem_cons.mp hc with rfl | hc
      · decide
      · exact (hws c hc).1
    unfold pyFloatChars
    rw [hstrip]
    dsimp only
    rw [if_pos rfl, hmag, Option.map_some', Option.some_inj, Rat.mkRat_eq_div]
    push_cast
    rw [neg_div, hvalq, habs, neg_div, neg_neg, Rat.num_div_den]
  · have habs : ((q.num.natAbs : ℚ)) = (q.num : ℚ) := by
      rw [Int.cast_natAbs, abs_of_nonneg (not_lt.mp hneg)]
    have hstrip : stripChars (floatReprChars q)
        = floatReprDigits (q.num.natAbs * (10 ^ k / q.den)) k := by
      rw [hrepr, if_neg hneg, List.nil_append]
      exact stripChars_eq_self fun c hc => (hws c hc).1
    unfold pyFloatChars
    rw [hstrip, hcons0]
    dsimp only
    rw [if_neg hc0m, if_neg hc0p, ← hcons0, hmag, Option.map_some', Option.some_inj,
      Rat.mkRat_eq_div]
    push_cast
    rw [hvalq, habs, Rat.num_div_den]

theorem mk_toList (s : String) : String.mk s.toList = s := by
  cases s
  rfl

theorem intReprChars_props (i : Int) : ∀ c ∈ intReprChars i,
    c.isWhitespace = false ∧ c ≠ '|' := by
  intro c hc
  rw [intReprChars] at hc
  rcases List.mem_append.mp hc with hs | hd
  · by_cases hi : i < 0
    · rw [if_pos hi, List.mem_singleton] at hs
      subst hs
      exact ⟨by decide, by decide⟩
    · rw [if_neg hi] at hs
      exact absurd hs (by simp)
  · have h := natDigits_props _ c hd
    exact ⟨h.2.1, h.2.2.1⟩

theorem floatReprChars_props (q : ℚ) : ∀ c ∈ floatReprChars q,
    c.isWhitespace = false ∧ c ≠ '|' := by
  intro c hc
  unfold floatReprChars at hc
  cases hk : decExp q.den with
  | none =>
    rw [hk] at hc
    simp only [List.mem_cons, List.mem_singleton] at hc
    rcases hc with rfl | rfl | hc
    · exact ⟨by decide, by decide⟩
    · exact ⟨by decide, by decide⟩
    · simp at hc
      subst hc
      exact ⟨by decide, by decide⟩
  | some k =>
    rw [hk] at hc
    rcases List.mem_append.mp hc with hs | hd
    · by_cases hi : q.num < 0
      · rw [if_pos hi, List.mem_singleton] at hs
        subst hs
        exact ⟨by decide, by decide⟩
      · rw [if_neg hi] at hs
        exact absurd hs (by simp)
    · obtain ⟨ip, fp, heq, hipne, hfpne, hmem, hval⟩ :=
        floatReprDigits_spec (q.num.natAbs * (10 ^ k / q.den)) k
      rw [heq] at hd
      rcases List.mem_append.mp hd with h | h
      · have hb := hmem c (List.mem_append_left _ h)
        exact ⟨hb.2.1, hb.2.2.1⟩
      · rcases List.mem_cons.mp h with rfl | h
        · exact ⟨by decide, by decide⟩
        · have hb := hmem c (List.mem_append_right _ h)
          exact ⟨hb.2.1, hb.2.2.1⟩

theorem floatReprChars_last (q : ℚ) : ∃ fb dch,
    floatReprChars q = fb ++ [dch] ∧ dch.isWhitespace = false := by
  unfold floatReprChars
  cases hk : decExp q.den with
  | none => exact ⟨['0', '.'], '0', rfl, by decide⟩
  | some k =>
    obtain ⟨ip, fp, heq, hipne, hfpne, hmem, hval⟩ :=
      floatReprDigits_spec (q.num.natAbs * (10 ^ k / q.den)) k
    have hfp : fp.dropLast ++ [fp.getLast hfpne] = fp := List.dropLast_append_getLast hfpne
    have hlast : (fp.getLast hfpne).isWhitespace = false :=
      (hmem _ (List.mem_append_right _ (List.getLast_mem hfpne))).2.1
    refine ⟨(if q.num < 0 then ['-'] else []) ++ ip ++ '.' :: fp.dropLast,
      fp.getLast hfpne, ?_, hlast⟩
    show (if q.num < 0 then ['-'] else [])
        ++ floatReprDigits (q.num.natAbs * (10 ^ k / q.den)) k = _
    rw [heq]
    conv_lhs => rw [← hfp]
    simp

theorem to_line_split (p : Producto)
    (h1 : '|' ∉ p.id.toList) (h2 : '|' ∉ p.nombre.toList)
    (h3 : noLeadWs p.id = true) :
    splitSep (stripChars ((Producto.to_line p).toList))
      = [p.id.toList, p.nombre.toList, intReprChars p.cantidad,
          floatReprChars p.precio] := by
  obtain ⟨fb, dch, hfl, hdws⟩ := floatReprChars_last p.precio
  have hdata : (p.to_line).toList
      = p.id.toList
        ++ '|' :: ((p.nombre.toList ++ '|' :: intReprChars p.cantidad ++ '|' :: fb)
          ++ [dch] ++ ['\n']) := by
    show (p.to_line).data = _
    simp [Producto.to_line, String.data_append, intRepr, floatRepr, String.toList, hfl]
  have hstrip : stripChars ((p.to_line).toList)
      = p.id.toList
        ++ '|' :: ((p.nombre.toList ++ '|' :: intReprChars p.cantidad ++ '|' :: fb)
          ++ [dch]) := by
    rw [hdata]
    apply stripChars_line
    · intro c hc
      rw [noLeadWs] at h3
      cases hid : p.id.toList with
      | nil =>
        rw [hid] at hc
        exact absurd hc (by simp)
      | cons a t =>
        rw [hid] at hc h3
        simp only [List.head?_cons, Option.some_inj] at hc
        subst hc
        simpa using h3
    · exact hdws
  rw [splitSep, hstrip, splitChar_append _ h1]
  have hshape : (p.nombre.toList ++ '|' :: intReprChars p.cantidad ++ '|' :: fb) ++ [dch]
      = p.nombre.toList ++ '|' :: (intReprChars p.cantidad ++ '|' :: (fb ++ [dch])) := by
    simp
  rw [hshape, splitChar_append _ h2,
    splitChar_append _ (fun hc => ((intReprChars_props p.cantidad '|' hc).2 rfl)),
    splitChar_no_sep _ (fun hc => ((floatReprChars_props p.precio '|' (hfl ▸ hc)).2 rfl)),
    ← hfl]

theorem from_line_to_line_aux (p : Producto)
    (h1 : '|' ∉ p.id.toList) (h2 : '|' ∉ p.nombre.toList)
    (h3 : noLeadWs p.id = true)
    (h4 : p.precio.den ∣ 10 ^ p.precio.den) :
    Producto.from_line (Producto.to_line p) = some p := by
  unfold Producto.from_line
  rw [to_line_split p h1 h2 h3]
  dsimp only
  rw [pyIntChars_intReprChars, pyFloatChars_floatReprChars _ h4]
  dsimp only
  rw [mk_toList, mk_toList]

/-- C1 (amended): a record whose id and name contain no delimiter and whose
id does not begin with a whitespace character (and whose price is a value
with a finite decimal expansion, as every binary float is) is recovered
exactly by parsing its serialized line. -/
theorem from_line_to_line (p : Producto)
    (h1 : '|' ∉ p.id.toList) (h2 : '|' ∉ p.nombre.toList)
    (h3 : noLeadWs p.id = true)
    (h4 : p.precio.den ∣ 10 ^ p.precio.den) :
    Producto.from_line (Producto.to_line p) = some p :=
  from_line_to_line_aux p h1 h2 h3 h4

/-- C1 counterexample: the round-trip property as stated in the
specification fails for an id that begins with a whitespace character, even
though it contains no delimiter: stripping eats the leading space. -/
theorem from_line_to_line_ce :
    Producto.from_line (Producto.to_line ⟨" A", "x", 1, mkRat 1 2⟩)
      ≠ some ⟨" A", "x", 1, mkRat 1 2⟩
    ∧ ('|' ∉ (" A".toList : List Char) ∧ '|' ∉ ("x".toList : List Char)) := by
  refine ⟨?_, by decide, by decide⟩
  decide

theorem from_line_to_line_witness :
    Producto.from_line (Producto.to_line ⟨"P1", "Bolt", 10, mkRat 1 2⟩)
      = some ⟨"P1", "Bolt", 10, mkRat 1 2⟩ :=
  from_line_to_line ⟨"P1", "Bolt", 10, mkRat 1 2⟩ (by decide) (by decide) (by decide)
    (by decide)

theorem length_eq_four {α : Type} {l : List α} (h : l.length = 4) :
    ∃ a b c d, l = [a, b, c, d] := by
  match l, h with
  | [a, b, c, d], _ => exact ⟨a, b, c, d, rfl⟩

theorem from_line_not_four {line : String}
    (h : (splitSep (stripChars line.toList)).length ≠ 4) :
    Producto.from_line line = none := by
  unfold Producto.from_line
  split
  · next pid nom cs ps hs =>
      rw [hs] at h
      exact absurd rfl h
  · rfl

/-- C3: parsing a line fails exactly when the split does not give four
parts or the integer or float conversion of the third or fourth part fails;
otherwise it yields the fully populated record built from the four parts. -/
theorem from_line_all_or_nothing (line : String) :
    (Producto.from_line line = none ↔
      (splitSep (stripChars line.toList)).length ≠ 4
      ∨ ∃ pid nom cs ps, splitSep (stripChars line.toList) = [pid, nom, cs, ps]
          ∧ (pyIntChars cs = none ∨ pyFloatChars ps = none))
    ∧ ∀ pid nom cs ps c pr,
        splitSep (stripChars line.toList) = [pid, nom, cs, ps] →
        pyIntChars cs = some c → pyFloatChars ps = some pr →
        Producto.from_line line = some ⟨String.mk pid, String.mk nom, c, pr⟩ := by
  have himp : ∀ pid nom cs ps c pr,
      splitSep (stripChars line.toList) = [pid, nom, cs, ps] →
      pyIntChars cs = some c → pyFloatChars ps = some pr →
      Producto.from_line line = some ⟨String.mk pid, String.mk nom, c, pr⟩ := by
    intro pid nom cs ps c pr hs hi hf
    unfold Producto.from_line
    rw [hs]
    dsimp only
    rw [hi, hf]
  refine ⟨?_, himp⟩
  by_cases hlen : (splitSep (stripChars line.toList)).length = 4
  · obtain ⟨pid, nom, cs, ps, hs⟩ := length_eq_four hlen
    have hred : Producto.from_line line
        = match pyIntChars cs, pyFloatChars ps with
          | some c, some pr => some ⟨String.mk pid, String.mk nom, c, pr⟩
          | _, _ => none := by
      unfold Producto.from_line
      rw [hs]
    cases hi : pyIntChars cs with
    | none =>
      rw [hred, hi]
      simp only [true_iff]
      cases hf : pyFloatChars ps
      · exact Or.inr ⟨pid, nom, cs, ps, hs, Or.inl hi⟩
      · exact Or.inr ⟨pid, nom, cs, ps, hs, Or.inl hi⟩
    | some c =>
      cases hf : pyFloatChars ps with
      | none =>
        rw [hred, hi, hf]
        simp only [true_iff]
        exact Or.inr ⟨pid, nom, cs, ps, hs, Or.inr hf⟩
      | some pr =>
        rw [hred, hi, hf]
        simp only [reduceCtorEq, false_iff]
        rintro (h4 | ⟨pid2, nom2, cs2, ps2, hs2, hbad⟩)
        · exact h4 hlen
        · rw [hs] at hs2
          injection hs2 with e1 hs2
          injection hs2 with e2 hs2
          injection hs2 with e3 hs2
          injection hs2 with e4 hs2
          subst e3
          subst e4
          rcases hbad with hb | hb
          · rw [hi] at hb
            exact Option.noConfusion hb
          · rw [hf] at hb
            exact Option.noConfusion hb
  · rw [from_line_not_four hlen]
    simp only [true_iff]
    exact Or.inl hlen

theorem from_line_all_or_nothing_witness :
    Producto.from_line "a|b|2|0.5" = some ⟨"a", "b", 2, mkRat 1 2⟩ :=
  (from_line_all_or_nothing "a|b|2|0.5").2 ['a'] ['b'] ['2'] ['0', '.', '5'] 2 (mkRat 1 2)
    (by decide) (by decide) (by decide)

/-- C9 counterexample: the claim as stated fails for an unrelated record P2
that satisfies every stated precondition (present in the store, id distinct
from P1's, update of P1 succeeds) — with id `" A"` the update leaves P2's
line byte-identical, yet reloading parses that line to a record with id
`"A"`; and with a `|` in the name P2's line does not parse at all. -/
theorem actualizar_preserves_other_ce :
    (Inventario.actualizar_producto
        ⟨[("P1", ⟨"P1", "Bolt", 10, mkRat 1 2⟩), (" A", ⟨" A", "Nut", 2, mkRat 3 4⟩)], "F"⟩
        ⟨"P1", "New", 5, mkRat 1 4⟩ true).2 = true
    ∧ dictGet (Inventario.actualizar_producto
        ⟨[("P1", ⟨"P1", "Bolt", 10, mkRat 1 2⟩), (" A", ⟨" A", "Nut", 2, mkRat 3 4⟩)], "F"⟩
        ⟨"P1", "New", 5, mkRat 1 4⟩ true).1.productos " A"
      = some ⟨" A", "Nut", 2, mkRat 3 4⟩
    ∧ Producto.from_line (Producto.to_line ⟨" A", "Nut", 2, mkRat 3 4⟩)
      ≠ some ⟨" A", "Nut", 2, mkRat 3 4⟩
    ∧ Producto.from_line (Producto.to_line ⟨"B", "Nu|t", 2, mkRat 3 4⟩)
      ≠ some ⟨"B", "Nu|t", 2, mkRat 3 4⟩ := by
  refine ⟨by decide, by decide, by decide, by decide⟩

/-- C9 (amended): for two records P1 and P2 with distinct ids both present
in the store, where P2's id and name contain no delimiter character and
P2's id does not begin with a whitespace character, a successful update of
P1 rewrites the file from a map in which P2's entry is unchanged, so P2's
line is byte-identical and parses back to the same record (prices again
quantified over the float-representable rationals). -/
theorem actualizar_preserves_other (inv : Inventario) (p1 p2 : Producto)
    (hpresent : containsId inv.productos p1.id = true)
    (hp2 : dictGet inv.productos p2.id = some p2)
    (hne : p2.id ≠ p1.id)
    (hb1 : '|' ∉ p2.id.toList) (hb2 : '|' ∉ p2.nombre.toList)
    (hw : noLeadWs p2.id = true) (hd : p2.precio.den ∣ 10 ^ p2.precio.den) :
    (inv.actualizar_producto p1 true).2 = true
    ∧ dictGet (inv.actualizar_producto p1 true).1.productos p2.id = some p2
    ∧ Producto.to_line p2
        ∈ (inv.actualizar_producto p1 true).1.productos.map (fun e => Producto.to_line e.2)
    ∧ (inv.actualizar_producto p1 true).1.archivo
        = serializeAll (inv.actualizar_producto p1 true).1.productos
    ∧ Producto.from_line (Producto.to_line p2) = some p2 := by
  have hop : inv.actualizar_producto p1 true
      = (⟨dictSet inv.productos p1.id p1,
          serializeAll (dictSet inv.productos p1.id p1)⟩, true) := by
    simp [Inventario.actualizar_producto, hpresent, Inventario.guardar_todo]
  have hget : dictGet (dictSet inv.productos p1.id p1) p2.id = some p2 := by
    rw [dictGet_dictSet_ne _ _ hne]
    exact hp2
  refine ⟨by rw [hop], by rw [hop]; exact hget, ?_, by rw [hop], ?_⟩
  · rw [hop]
    dsimp only
    unfold dictGet at hget
    obtain ⟨e, hfind, he2⟩ := Option.map_eq_some'.mp hget
    exact List.mem_map.mpr ⟨e, List.mem_of_find?_eq_some hfind, by rw [he2]⟩
  · exact from_line_to_line_aux p2 hb1 hb2 hw hd

theorem actualizar_preserves_other_witness :
    (Inventario.actualizar_producto
        ⟨[("P1", ⟨"P1", "Bolt", 10, mkRat 1 2⟩), ("P2", ⟨"P2", "Nut", 2, mkRat 3 4⟩)], "F"⟩
        ⟨"P1", "New", 5, mkRat 1 4⟩ true).2 = true
    ∧ dictGet (Inventario.actualizar_producto
        ⟨[("P1", ⟨"P1", "Bolt", 10, mkRat 1 2⟩), ("P2", ⟨"P2", "Nut", 2, mkRat 3 4⟩)], "F"⟩
        ⟨"P1", "New", 5, mkRat 1 4⟩ true).1.productos "P2"
      = some ⟨"P2", "Nut", 2, mkRat 3 4⟩
    ∧ Producto.to_line ⟨"P2", "Nut", 2, mkRat 3 4⟩
        ∈ (Inventario.actualizar_producto
            ⟨[("P1", ⟨"P1", "Bolt", 10, mkRat 1 2⟩), ("P2", ⟨"P2", "Nut", 2, mkRat 3 4⟩)], "F"⟩
            ⟨"P1", "New", 5, mkRat 1 4⟩ true).1.productos.map (fun e => Producto.to_line e.2)
    ∧ (Inventario.actualizar_producto
        ⟨[("P1", ⟨"P1", "Bolt", 10, mkRat 1 2⟩), ("P2", ⟨"P2", "Nut", 2, mkRat 3 4⟩)], "F"⟩
        ⟨"P1", "New", 5, mkRat 1 4⟩ true).1.archivo
      = serializeAll (Inventario.actualizar_producto
          ⟨[("P1", ⟨"P1", "Bolt", 10, mkRat 1 2⟩), ("P2", ⟨"P2", "Nut", 2, mkRat 3 4⟩)], "F"⟩
          ⟨"P1", "New", 5, mkRat 1 4⟩ true).1.productos
    ∧ Producto.from_line (Producto.to_line ⟨"P2", "Nut", 2, mkRat 3 4⟩)
      = some ⟨"P2", "Nut", 2, mkRat 3 4⟩ :=
  actualizar_preserves_other
    ⟨[("P1", ⟨"P1", "Bolt", 10, mkRat 1 2⟩), ("P2", ⟨"P2", "Nut", 2, mkRat 3 4⟩)], "F"⟩
    ⟨"P1", "New", 5, mkRat 1 4⟩ ⟨"P2", "Nut", 2, mkRat 3 4⟩
    (by decide) (by decide) (by decide) (by decide) (by decide) (by decide) (by decide)

theorem load_fold_get (ps : List Producto) (m : PMap) (k : String) :
    dictGet (ps.foldl (fun m p => dictSet m p.id p) m) k
      = ((ps.filter (fun p => p.id == k)).getLast?).elim (dictGet m k) some := by
  induction ps generalizing m with
  | nil => rfl
  | cons p ps ih =>
    rw [List.foldl_cons, ih]
    by_cases hpk : (p.id == k) = true
    · have hpk' : p.id = k := beq_iff_eq.mp hpk
      rw [List.filter_cons, if_pos hpk]
      cases hrest : (ps.filter (fun p => p.id == k)).getLast? with
      | none =>
        have hnil : ps.filter (fun p => p.id == k) = [] :=
          List.getLast?_eq_none_iff.mp hrest
        rw [hnil]
        subst hpk'
        simp [Option.elim, dictGet_dictSet_self]
      | some q =>
        cases hfil : ps.filter (fun p => p.id == k) with
        | nil => rw [hfil] at hrest; exact absurd hrest (by simp)
        | cons b l =>
          rw [hfil] at hrest
          rw [List.getLast?_cons_cons, hrest]
          rfl
    · rw [List.filter_cons, if_neg hpk,
        dictGet_dictSet_ne _ _ (fun hh => hpk (beq_iff_eq.mpr hh.symm))]

theorem dictSet_keys_subset (m : PMap) (k : String) (v : Producto) :
    ∀ k2 ∈ (dictSet m k v).map Prod.fst, k2 ∈ k :: m.map Prod.fst := by
  induction m with
  | nil =>
    intro k2 h
    simpa [dictSet] using h
  | cons e t ih =>
    obtain ⟨k1, v1⟩ := e
    intro k2 h
    by_cases h1 : (k1 == k) = true
    · rw [dictSet, if_pos h1] at h
      simp only [List.map_cons, List.mem_cons] at h ⊢
      tauto
    · rw [dictSet, if_neg h1] at h
      simp only [List.map_cons, List.mem_cons] at h ⊢
      rcases h with rfl | h
      · tauto
      · have := ih k2 h
        simp only [List.mem_cons] at this
        tauto

theorem dictSet_keys_nodup (m : PMap) (k : String) (v : Producto)
    (h : (m.map Prod.fst).Nodup) : ((dictSet m k v).map Prod.fst).Nodup := by
  induction m with
  | nil => simp [dictSet]
  | cons e t ih =>
    obtain ⟨k1, v1⟩ := e
    simp only [List.map_cons, List.nodup_cons] at h
    by_cases h1 : (k1 == k) = true
    · rw [dictSet, if_pos h1]
      simp only [List.map_cons, List.nodup_cons]
      exact ⟨h.1, h.2⟩
    · rw [dictSet, if_neg h1]
      simp only [List.map_cons, List.nodup_cons]
      refine ⟨?_, ih h.2⟩
      intro hmem
      have := dictSet_keys_subset t k v k1 hmem
      simp only [List.mem_cons] at this
      rcases this with rfl | hh
      · exact h1 (beq_iff_eq.mpr rfl)
      · exact h.1 hh

theorem load_fold_nodup (ps : List Producto) (m : PMap)
    (h : (m.map Prod.fst).Nodup) :
    ((ps.foldl (fun m p => dictSet m p.id p) m).map Prod.fst).Nodup := by
  induction ps generalizing m with
  | nil => exact h
  | cons p ps ih =>
    rw [List.foldl_cons]
    exact ih _ (dictSet_keys_nodup m p.id p h)

theorem filter_len_le_one (m : PMap) (k : String)
    (h : (m.map Prod.fst).Nodup) :
    (m.filter (fun e => e.1 == k)).length ≤ 1 := by
  induction m with
  | nil => simp
  | cons e t ih =>
    obtain ⟨k1, v1⟩ := e
    simp only [List.map_cons, List.nodup_cons] at h
    by_cases h1 : (k1 == k) = true
    · rw [List.filter_cons, if_pos h1]
      have hnil : t.filter (fun e => e.1 == k) = [] := by
        rw [List.filter_eq_nil_iff]
        intro e he hbad
        apply h.1
        have hek : e.1 = k := beq_iff_eq.mp hbad
        have hk1 : k1 = k := beq_iff_eq.mp h1
        exact List.mem_map.mpr ⟨e, he, by rw [hek, hk1]⟩
      rw [hnil]
      simp
    · rw [List.filter_cons, if_neg h1]
      exact ih h.2

/-- C10: after a successful reload, the map holds for every id exactly the
last record parsed for that id in file order (later well-formed lines with
the same id overwrite earlier ones), and no id has more than one entry. -/
theorem cargar_last_duplicate_wins (inv : Inventario) (k : String) :
    dictGet (inv.cargar_desde_archivo true).productos k
      = ((parsedRecords (readlines inv.archivo)).filter (fun p => p.id == k)).getLast?
    ∧ ((inv.cargar_desde_archivo true).productos.filter
        (fun e => e.1 == k)).length ≤ 1 := by
  have hprod : (inv.cargar_desde_archivo true).productos
      = cargarDesdeLineas (readlines inv.archivo) := by
    cases inv
    simp [Inventario.cargar_desde_archivo]
  constructor
  · rw [hprod, cargarDesdeLineas_eq, load_fold_get]
    cases ((parsedRecords (readlines inv.archivo)).filter (fun p => p.id == k)).getLast? with
    | none => rfl
    | some q => rfl
  · rw [hprod, cargarDesdeLineas_eq]
    exact filter_len_le_one _ _ (load_fold_nodup _ [] (by simp))
